import Mathlib

/-!
Verification of the cookie-resolution and download-resilience pipeline of
app.py (Scriptfy downloader backend).

Python strings are modelled as lists of characters (`Str`).  Python functions
from app.py are translated one-to-one into Lean functions on `Str`; fallible
code (the URL parser raising ValueError, the download loop raising
RuntimeError) is modelled with `Except`.  External collaborators (the yt_dlp
library, the Supabase HTTP store, the process environment, the filesystem)
are modelled as oracles passed in as function arguments, exactly at the
boundary where app.py calls them.
-/

set_option linter.unusedVariables false

abbrev Str := List Char

instance exceptDecEq {ε α : Type} [DecidableEq ε] [DecidableEq α] :
    DecidableEq (Except ε α) := fun a b =>
  match a, b with
  | .ok x, .ok y =>
    if h : x = y then isTrue (by rw [h]) else isFalse (by intro hc; cases hc; exact h rfl)
  | .error x, .error y =>
    if h : x = y then isTrue (by rw [h]) else isFalse (by intro hc; cases hc; exact h rfl)
  | .ok _, .error _ => isFalse (by intro hc; cases hc)
  | .error _, .ok _ => isFalse (by intro hc; cases hc)

/-- Whitespace as recognised both by the Python str.isspace / str.strip family
and by the regex class backslash-s of the re module (for text patterns the
re module uses the same unicode whitespace predicate as str.isspace):
ASCII space, tab, LF, VT, FF, CR, the C1 separators 0x1c-0x1f, NEL, NBSP and
the unicode space separators. -/
def isPySpace (c : Char) : Bool :=
  c.toNat ∈ [9, 10, 11, 12, 13, 28, 29, 30, 31, 32, 133, 160,
    0x1680, 0x2000, 0x2001, 0x2002, 0x2003, 0x2004, 0x2005, 0x2006, 0x2007,
    0x2008, 0x2009, 0x200A, 0x2028, 0x2029, 0x202F, 0x205F, 0x3000]

/-- Python str.startswith. -/
def startsWith : Str → Str → Bool
  | [], _ => true
  | _ :: _, [] => false
  | p :: ps, c :: cs => p == c && startsWith ps cs

/-- Python substring containment, pat in s. -/
def containsSub (pat : Str) : Str → Bool
  | [] => startsWith pat []
  | c :: rest => startsWith pat (c :: rest) || containsSub pat rest

/-- Python str.lower (the hosts and labels handled by app.py are ASCII). -/
def lowerL (s : Str) : Str := s.map Char.toLower

/-- Python str.upper (the strategy labels are ASCII). -/
def upperL (s : Str) : Str := s.map Char.toUpper

/-- Python str.rstrip with no argument: drop trailing whitespace. -/
def rstripL (s : Str) : Str := (s.reverse.dropWhile isPySpace).reverse

/-- Python str.lstrip with no argument. -/
def lstripL (s : Str) : Str := s.dropWhile isPySpace

/-- Python str.strip with no argument. -/
def stripL (s : Str) : Str := lstripL (rstripL s)

/-- Python str.split with a one-character separator (str.split of "x"):
splits at every occurrence, keeping empty pieces. -/
def splitOnCharL (c : Char) : Str → List Str
  | [] => [[]]
  | a :: rest =>
    if a = c then [] :: splitOnCharL c rest
    else
      match splitOnCharL c rest with
      | l :: ls => (a :: l) :: ls
      | [] => [[a]]

/-- Python sep.join(pieces). -/
def joinStr (sep : Str) : List Str → Str
  | [] => []
  | p :: ps =>
    match ps with
    | [] => p
    | _ :: _ => p ++ sep ++ joinStr sep ps

/-- Python txt.replace of the two-character sequence CR LF by LF:
a single left-to-right pass over non-overlapping occurrences. -/
def replaceCRLF : Str → Str
  | [] => []
  | [a] => [a]
  | a :: b :: rest =>
    if a = '\r' ∧ b = '\n' then '\n' :: replaceCRLF rest
    else a :: replaceCRLF (b :: rest)

/-- Python txt.replace of CR by LF (a one-character replace is a map). -/
def mapCRtoLF (s : Str) : Str := s.map (fun c => if c = '\r' then '\n' else c)

/-- Line-ending normalisation performed at the top of _sanitize_netscape_text:
txt.replace CRLF-to-LF followed by txt.replace CR-to-LF.  The encode/decode
round trip through utf-8 with errors=ignore is the identity on the valid
unicode strings modelled here. -/
def normalizeNewlines (s : Str) : Str := mapCRtoLF (replaceCRLF s)

/-- Python re.split of the pattern backslash-s-plus with maxsplit=n:
at most n splits at maximal runs of whitespace; the remainder after the last
split is kept verbatim.  A leading run produces a leading empty field. -/
def reSplitWs : Nat → Str → List Str
  | 0, l => [l]
  | n + 1, l =>
    let pre := l.takeWhile (fun c => !isPySpace c)
    let rest := l.dropWhile (fun c => !isPySpace c)
    match rest with
    | [] => [l]
    | _ :: _ => pre :: reSplitWs n (rest.dropWhile isPySpace)

/-- First line of the standard Netscape cookie-jar header block. -/
def hdr1 : Str := "# Netscape HTTP Cookie File".data

/-- Second line of the standard header block. -/
def hdr2 : Str := "# http://curl.haxx.se/rfc/cookie_spec.html".data

/-- Third line of the standard header block. -/
def hdr3 : Str := "# This is a generated file!  Do not edit.".data

/-- Body of the for loop of _sanitize_netscape_text applied to one
non-comment, nonempty, already-rstripped line: if the line has no tab,
re-split it on whitespace runs with maxsplit=6 and, when 7 fields result,
rewrite it as the first 6 fields tab-joined plus a tab and the 7th field. -/
def procNonComment (line : Str) : Str :=
  if '\t' ∈ line then line
  else
    let parts := reSplitWs 6 line
    if 7 ≤ parts.length then
      joinStr ['\t'] (parts.take 6) ++ '\t' :: parts.getD 6 []
    else line

/-- The line loop of _sanitize_netscape_text: rstrip each raw line, drop the
empty ones, keep comment lines, process the rest through `procNonComment`;
the boolean is the seen_header flag, set when some kept comment line starts
with the first standard header line. -/
def sanPass : List Str → List Str × Bool
  | [] => ([], false)
  | raw :: rest =>
    let line := rstripL raw
    let r := sanPass rest
    if line = [] then r
    else if startsWith "#".data line then
      (line :: r.1, startsWith hdr1 line || r.2)
    else
      (procNonComment line :: r.1, r.2)

/-- Embedding of _sanitize_netscape_text (app.py lines 103-128). -/
def _sanitize_netscape_text (s : Str) : Str :=
  if s = [] then []
  else
    let t := normalizeNewlines s
    let pr := sanPass (splitOnCharL '\n' t)
    let ls := if pr.2 then pr.1 else hdr1 :: hdr2 :: hdr3 :: pr.1
    joinStr ['\n'] ls ++ ['\n']

/-! Basic lemmas about the string helpers. -/

theorem startsWith_cons {a : Char} {ps s : Str} (h : startsWith (a :: ps) s = true) :
    ∃ cs, s = a :: cs ∧ startsWith ps cs = true := by
  cases s with
  | nil => simp [startsWith] at h
  | cons c cs =>
    simp only [startsWith, Bool.and_eq_true, beq_iff_eq] at h
    exact ⟨cs, by rw [h.1], h.2⟩

theorem startsWith_refl (p : Str) : startsWith p p = true := by
  induction p with
  | nil => rfl
  | cons a ps ih => simp [startsWith, ih]

theorem startsWith_hdr1_hash {s : Str} (h : startsWith hdr1 s = true) :
    startsWith "#".data s = true := by
  have e : hdr1 = '#' :: " Netscape HTTP Cookie File".data := rfl
  rw [e] at h
  obtain ⟨cs, hs, _⟩ := startsWith_cons h
  rw [hs]
  simp [startsWith]

theorem startsWith_hash_head {s : Str} (h : startsWith "#".data s = true) :
    ∃ cs, s = '#' :: cs := by
  have e : "#".data = '#' :: [] := rfl
  rw [e] at h
  obtain ⟨cs, hs, _⟩ := startsWith_cons h
  exact ⟨cs, hs⟩

theorem splitOnCharL_ne_nil (c : Char) (s : Str) : splitOnCharL c s ≠ [] := by
  induction s with
  | nil => simp [splitOnCharL]
  | cons a rest ih =>
    simp only [splitOnCharL]
    split
    · simp
    · split <;> simp

theorem splitOnCharL_not_mem (c : Char) (s : Str) :
    ∀ p ∈ splitOnCharL c s, c ∉ p := by
  induction s with
  | nil => intro p hp; simp [splitOnCharL] at hp; simp [hp]
  | cons a rest ih =>
    intro p hp
    simp only [splitOnCharL] at hp
    by_cases hac : a = c
    · rw [if_pos hac] at hp
      rcases List.mem_cons.mp hp with h | h
      · simp [h]
      · exact ih p h
    · rw [if_neg hac] at hp
      rcases he : splitOnCharL c rest with _ | ⟨l, ls⟩
      · exact absurd he (splitOnCharL_ne_nil c rest)
      · rw [he] at hp
        rcases List.mem_cons.mp hp with h | h
        · subst h
          intro hm
          rcases List.mem_cons.mp hm with h2 | h2
          · exact hac h2.symm
          · exact ih l (by rw [he]; exact List.mem_cons_self _ _) h2
        · exact ih p (by rw [he]; exact List.mem_cons_of_mem _ h)

theorem splitOnCharL_append {c : Char} {l : Str} (hl : c ∉ l) (r : Str) :
    splitOnCharL c (l ++ c :: r) = l :: splitOnCharL c r := by
  induction l with
  | nil => simp [splitOnCharL]
  | cons a l2 ih =>
    have hac : ¬ a = c := fun h => hl (by rw [h]; exact List.mem_cons_self _ _)
    simp only [List.cons_append, splitOnCharL, if_neg hac, List.append_eq]
    rw [ih (fun hm => hl (List.mem_cons_of_mem a hm))]

theorem joinStr_cons_of_ne_nil {sep : Str} {l : Str} {ls : List Str} (h : ls ≠ []) :
    joinStr sep (l :: ls) = l ++ sep ++ joinStr sep ls := by
  cases ls with
  | nil => exact absurd rfl h
  | cons x xs => rfl

theorem splitOnCharL_joinStr (c : Char) (ls : List Str) (hne : ls ≠ [])
    (hfree : ∀ p ∈ ls, c ∉ p) :
    splitOnCharL c (joinStr [c] ls ++ [c]) = ls ++ [[]] := by
  induction ls with
  | nil => exact absurd rfl hne
  | cons l ls2 ih =>
    cases ls2 with
    | nil =>
      have : joinStr [c] [l] ++ [c] = l ++ c :: [] := by simp [joinStr]
      rw [this, splitOnCharL_append (hfree l (List.mem_cons_self _ _))]
      rfl
    | cons m ms =>
      rw [joinStr_cons_of_ne_nil (by simp)]
      have assoc : l ++ [c] ++ joinStr [c] (m :: ms) ++ [c]
          = l ++ c :: (joinStr [c] (m :: ms) ++ [c]) := by simp
      rw [assoc, splitOnCharL_append (hfree l (List.mem_cons_self _ _))]
      rw [ih (by simp) (fun p hp => hfree p (List.mem_cons_of_mem _ hp))]
      rfl

theorem mem_joinStr {x : Char} {sep : Str} {ls : List Str} (h : x ∈ joinStr sep ls) :
    x ∈ sep ∨ ∃ p ∈ ls, x ∈ p := by
  induction ls with
  | nil => simp [joinStr] at h
  | cons l ls2 ih =>
    cases ls2 with
    | nil =>
      simp only [joinStr] at h
      exact Or.inr ⟨l, List.mem_cons_self _ _, h⟩
    | cons m ms =>
      rw [joinStr_cons_of_ne_nil (by simp)] at h
      rcases List.mem_append.mp h with h2 | h2
      · rcases List.mem_append.mp h2 with h3 | h3
        · exact Or.inr ⟨l, List.mem_cons_self _ _, h3⟩
        · exact Or.inl h3
      · rcases ih h2 with h3 | ⟨p, hp, hxp⟩
        · exact Or.inl h3
        · exact Or.inr ⟨p, List.mem_cons_of_mem _ hp, hxp⟩

/-! Lemmas about rstrip. -/

theorem dropWhile_head_not {p : Char → Bool} {l t : Str} {b : Char}
    (h : l.dropWhile p = b :: t) : p b = false := by
  induction l with
  | nil => simp [List.dropWhile] at h
  | cons a l2 ih =>
    rw [List.dropWhile_cons] at h
    by_cases hp : p a
    · rw [if_pos hp] at h; exact ih h
    · rw [if_neg hp] at h
      cases h
      exact eq_false_of_ne_true hp

theorem dropWhile_dropWhile (p : Char → Bool) (l : Str) :
    (l.dropWhile p).dropWhile p = l.dropWhile p := by
  rcases he : l.dropWhile p with _ | ⟨b, t⟩
  · rfl
  · rw [List.dropWhile_cons, if_neg (by rw [dropWhile_head_not he]; simp)]

theorem rstripL_idem (s : Str) : rstripL (rstripL s) = rstripL s := by
  unfold rstripL
  rw [List.reverse_reverse, dropWhile_dropWhile]

theorem rstripL_concat_nonspace {l : Str} {b : Char} (hb : isPySpace b = false) :
    rstripL (l ++ [b]) = l ++ [b] := by
  unfold rstripL
  rw [List.reverse_append, List.reverse_singleton, List.singleton_append,
    List.dropWhile_cons, if_neg (by rw [hb]; simp)]
  simp

theorem rstripL_ends (s : Str) :
    rstripL s = [] ∨ ∃ q b, rstripL s = q ++ [b] ∧ isPySpace b = false := by
  rcases he : s.reverse.dropWhile isPySpace with _ | ⟨b, t⟩
  · left; unfold rstripL; rw [he]; rfl
  · right
    refine ⟨t.reverse, b, ?_, dropWhile_head_not he⟩
    unfold rstripL
    rw [he, List.reverse_cons]

theorem mem_rstripL {x : Char} {s : Str} (h : x ∈ rstripL s) : x ∈ s := by
  unfold rstripL at h
  rw [List.mem_reverse] at h
  have := (List.dropWhile_sublist (l := s.reverse) isPySpace).subset h
  rwa [List.mem_reverse] at this

/-! Lemmas about the whitespace re-split. -/

theorem reSplitWs_ne_nil (n : Nat) (l : Str) : reSplitWs n l ≠ [] := by
  cases n with
  | zero => simp [reSplitWs]
  | succ m =>
    simp only [reSplitWs]
    split <;> simp

theorem reSplitWs_length (n : Nat) (l : Str) : (reSplitWs n l).length ≤ n + 1 := by
  induction n generalizing l with
  | zero => simp [reSplitWs]
  | succ m ih =>
    simp only [reSplitWs]
    split
    · simp
    · simp only [List.length_cons]
      exact Nat.succ_le_succ (ih _)

theorem mem_reSplitWs {x : Char} {n : Nat} {l p : Str}
    (hp : p ∈ reSplitWs n l) (hx : x ∈ p) : x ∈ l := by
  induction n generalizing l with
  | zero =>
    simp only [reSplitWs, List.mem_singleton] at hp
    rwa [hp] at hx
  | succ m ih =>
    simp only [reSplitWs] at hp
    rcases he : l.dropWhile (fun c => !isPySpace c) with _ | ⟨r, rs⟩
    · rw [he] at hp
      simp only [List.mem_singleton] at hp
      rwa [hp] at hx
    · rw [he] at hp
      rcases List.mem_cons.mp hp with h | h
      · rw [h] at hx
        exact (List.takeWhile_sublist _).subset hx
      · have h2 := ih h
        have h3 := (List.dropWhile_sublist (l := r :: rs) isPySpace).subset h2
        rw [← he] at h3
        exact (List.dropWhile_sublist _).subset h3

theorem dropWhile_concat_last (p : Char → Bool) (q : Str) (b : Char)
    (h : (q ++ [b]).dropWhile p ≠ []) :
    ∃ q2, (q ++ [b]).dropWhile p = q2 ++ [b] := by
  induction q with
  | nil =>
    simp only [List.nil_append, List.dropWhile_cons] at h ⊢
    by_cases hp : p b
    · rw [if_pos hp] at h; simp [List.dropWhile] at h
    · rw [if_neg hp]; exact ⟨[], rfl⟩
  | cons a q2 ih =>
    simp only [List.cons_append, List.dropWhile_cons] at h ⊢
    by_cases hp : p a
    · rw [if_pos hp] at h ⊢; exact ih h
    · rw [if_neg hp] at h ⊢
      exact ⟨a :: q2, rfl⟩

theorem reSplitWs_succ_cons (n : Nat) (l : Str) {r : Char} {rs : Str}
    (he : l.dropWhile (fun c => !isPySpace c) = r :: rs) :
    reSplitWs (n + 1) l
      = l.takeWhile (fun c => !isPySpace c)
        :: reSplitWs n ((r :: rs).dropWhile isPySpace) := by
  have e : reSplitWs (n + 1) l
      = match l.dropWhile (fun c => !isPySpace c) with
        | [] => [l]
        | _ :: _ =>
          l.takeWhile (fun c => !isPySpace c)
            :: reSplitWs n ((l.dropWhile (fun c => !isPySpace c)).dropWhile isPySpace) := rfl
  rw [e, he]

theorem reSplitWs_succ_nil (n : Nat) (l : Str)
    (he : l.dropWhile (fun c => !isPySpace c) = []) :
    reSplitWs (n + 1) l = [l] := by
  have e : reSplitWs (n + 1) l
      = match l.dropWhile (fun c => !isPySpace c) with
        | [] => [l]
        | _ :: _ =>
          l.takeWhile (fun c => !isPySpace c)
            :: reSplitWs n ((l.dropWhile (fun c => !isPySpace c)).dropWhile isPySpace) := rfl
  rw [e, he]

theorem reSplitWs_last (n : Nat) (q : Str) (b : Char) (hb : isPySpace b = false) :
    ∃ ps q2, reSplitWs n (q ++ [b]) = ps ++ [q2 ++ [b]] := by
  induction n generalizing q with
  | zero => exact ⟨[], q, rfl⟩
  | succ m ih =>
    rcases he : (q ++ [b]).dropWhile (fun c => !isPySpace c) with _ | ⟨r, rs⟩
    · refine ⟨[], q, ?_⟩
      rw [reSplitWs_succ_nil m _ he]
      rfl
    · obtain ⟨q3, hq3⟩ := dropWhile_concat_last _ q b (by rw [he]; simp)
      rw [he] at hq3
      have hpost : (q3 ++ [b]).dropWhile isPySpace ≠ [] := by
        intro hnil
        rw [List.dropWhile_eq_nil_iff] at hnil
        have := hnil b (List.mem_append_right _ (List.mem_cons_self _ _))
        rw [hb] at this
        exact Bool.false_ne_true this
      obtain ⟨q4, hq4⟩ := dropWhile_concat_last isPySpace q3 b hpost
      have hq5 : (r :: rs).dropWhile isPySpace = q4 ++ [b] := by rw [hq3, hq4]
      obtain ⟨ps, q5, hrec⟩ := ih (q := q4)
      refine ⟨(q ++ [b]).takeWhile (fun c => !isPySpace c) :: ps, q5, ?_⟩
      rw [reSplitWs_succ_cons m _ he, hq5, hrec]
      rfl

theorem getD_concat (ps : List Str) (p : Str) (d : Str) :
    (ps ++ [p]).getD ps.length d = p := by
  induction ps with
  | nil => rfl
  | cons a ps2 ih => simp only [List.cons_append, List.length_cons, List.getD_cons_succ]; exact ih

/-! Lemmas about newline normalisation. -/

theorem replaceCRLF_id {s : Str} (h : '\r' ∉ s) : replaceCRLF s = s := by
  induction s using replaceCRLF.induct with
  | case1 => rfl
  | case2 a => rfl
  | case3 a b rest hab ih =>
    exact absurd (by rw [hab.1]; exact List.mem_cons_self _ _) h
  | case4 a b rest hab ih =>
    simp only [replaceCRLF, if_neg hab]
    rw [ih (fun hm => h (List.mem_cons_of_mem a hm))]

theorem mapCRtoLF_id {s : Str} (h : '\r' ∉ s) : mapCRtoLF s = s := by
  unfold mapCRtoLF
  induction s with
  | nil => rfl
  | cons a rest ih =>
    have ha : ¬ a = '\r' := fun he => h (by rw [he]; exact List.mem_cons_self _ _)
    simp only [List.map_cons, if_neg ha]
    rw [ih (fun hm => h (List.mem_cons_of_mem a hm))]

theorem normalizeNewlines_id {s : Str} (h : '\r' ∉ s) : normalizeNewlines s = s := by
  unfold normalizeNewlines
  rw [replaceCRLF_id h, mapCRtoLF_id h]

theorem mapCRtoLF_no_cr (s : Str) : '\r' ∉ mapCRtoLF s := by
  intro hm
  obtain ⟨a, _, hfa⟩ := List.mem_map.mp hm
  by_cases ha : a = '\r'
  · rw [if_pos ha] at hfa; cases hfa
  · rw [if_neg ha] at hfa; exact ha hfa

theorem normalizeNewlines_no_cr (s : Str) : '\r' ∉ normalizeNewlines s :=
  mapCRtoLF_no_cr _

/-! Stability of the per-line rewriting. -/

theorem procNonComment_spec {line : Str} (hr : rstripL line = line) (hne : line ≠ []) :
    rstripL (procNonComment line) = procNonComment line ∧
    procNonComment line ≠ [] ∧
    procNonComment (procNonComment line) = procNonComment line ∧
    (∀ x ∈ procNonComment line, x = '\t' ∨ x ∈ line) := by
  have henw : ∃ q b, line = q ++ [b] ∧ isPySpace b = false := by
    rcases rstripL_ends line with h | ⟨q, b, hqb, hb⟩
    · rw [hr] at h; exact absurd h hne
    · rw [hr] at hqb; exact ⟨q, b, hqb, hb⟩
  by_cases ht : '\t' ∈ line
  · rw [procNonComment, if_pos ht]
    exact ⟨hr, hne, by rw [procNonComment, if_pos ht], fun x hx => Or.inr hx⟩
  · rw [procNonComment, if_neg ht]
    simp only
    by_cases h7 : 7 ≤ (reSplitWs 6 line).length
    · rw [if_pos h7]
      obtain ⟨q, b, hqb, hb⟩ := henw
      obtain ⟨ps, q2, hparts⟩ := reSplitWs_last 6 q b hb
      rw [← hqb] at hparts
      have hlen7 : (reSplitWs 6 line).length = 7 :=
        Nat.le_antisymm (reSplitWs_length 6 line) h7
      have hps6 : ps.length = 6 := by
        have := hlen7
        rw [hparts] at this
        simp only [List.length_append, List.length_singleton] at this
        omega
      have hgetD : (reSplitWs 6 line).getD 6 [] = q2 ++ [b] := by
        rw [hparts, ← hps6]
        exact getD_concat ps (q2 ++ [b]) []
      set out := joinStr ['\t'] ((reSplitWs 6 line).take 6) ++ '\t' :: (reSplitWs 6 line).getD 6 [] with hout
      have houtform : out = (joinStr ['\t'] ((reSplitWs 6 line).take 6) ++ '\t' :: q2) ++ [b] := by
        rw [hout, hgetD]
        simp
      have htabout : '\t' ∈ out := by
        rw [hout]
        exact List.mem_append_right _ (List.mem_cons_self _ _)
      have hchars : ∀ x ∈ out, x = '\t' ∨ x ∈ line := by
        intro x hx
        rw [hout] at hx
        rcases List.mem_append.mp hx with h | h
        · rcases mem_joinStr h with h2 | ⟨p, hp, hxp⟩
          · simp only [List.mem_singleton] at h2; exact Or.inl h2
          · exact Or.inr (mem_reSplitWs (List.take_subset 6 _ hp) hxp)
        · rcases List.mem_cons.mp h with h2 | h2
          · exact Or.inl h2
          · refine Or.inr (@mem_reSplitWs x 6 line ((reSplitWs 6 line).getD 6 []) ?_ h2)
            rw [hgetD, hparts]
            exact List.mem_append_right _ (List.mem_cons_self _ _)
      refine ⟨?_, ?_, ?_, hchars⟩
      · rw [houtform]
        exact rstripL_concat_nonspace hb
      · exact List.ne_nil_of_mem htabout
      · rw [procNonComment, if_pos htabout]
    · rw [if_neg h7]
      refine ⟨hr, hne, ?_, fun x hx => Or.inr hx⟩
      rw [procNonComment, if_neg ht]
      simp only
      rw [if_neg h7]

/-- Shape of the lines emitted by one run of the sanitizer loop: each kept
line is rstrip-stable, nonempty, newline-free, and is either a comment line
or a fixed point of the non-comment rewriting. -/
def processedLine (l : Str) : Prop :=
  rstripL l = l ∧ l ≠ [] ∧ '\n' ∉ l ∧ '\r' ∉ l ∧
  (startsWith "#".data l = true ∨ procNonComment l = l)

theorem sanPass_processed (raws : List Str)
    (hch : ∀ r ∈ raws, '\n' ∉ r ∧ '\r' ∉ r) :
    ∀ l ∈ (sanPass raws).1, processedLine l := by
  induction raws with
  | nil => intro l hl; simp [sanPass] at hl
  | cons raw rest ih =>
    intro l hl
    have hraw := hch raw (List.mem_cons_self _ _)
    have hrest : ∀ r ∈ rest, '\n' ∉ r ∧ '\r' ∉ r :=
      fun r hr => hch r (List.mem_cons_of_mem _ hr)
    simp only [sanPass] at hl
    by_cases hemp : rstripL raw = []
    · rw [if_pos hemp] at hl
      exact ih hrest l hl
    · rw [if_neg hemp] at hl
      have hlineNL : '\n' ∉ rstripL raw := fun hm => hraw.1 (mem_rstripL hm)
      have hlineCR : '\r' ∉ rstripL raw := fun hm => hraw.2 (mem_rstripL hm)
      by_cases hcom : startsWith "#".data (rstripL raw) = true
      · rw [if_pos hcom] at hl
        rcases List.mem_cons.mp hl with h | h
        · rw [h]
          exact ⟨rstripL_idem raw, hemp, hlineNL, hlineCR, Or.inl hcom⟩
        · exact ih hrest l h
      · rw [if_neg hcom] at hl
        rcases List.mem_cons.mp hl with h | h
        · obtain ⟨h1, h2, h3, h4⟩ := procNonComment_spec (rstripL_idem raw) hemp
          rw [h]
          refine ⟨h1, h2, ?_, ?_, Or.inr h3⟩
          · intro hm
            rcases h4 _ hm with he | he
            · cases he
            · exact hlineNL he
          · intro hm
            rcases h4 _ hm with he | he
            · cases he
            · exact hlineCR he
        · exact ih hrest l h

theorem sanPass_flag_witness (raws : List Str) (h : (sanPass raws).2 = true) :
    ∃ l ∈ (sanPass raws).1, startsWith hdr1 l = true := by
  induction raws with
  | nil => simp [sanPass] at h
  | cons raw rest ih =>
    simp only [sanPass] at h ⊢
    by_cases hemp : rstripL raw = []
    · rw [if_pos hemp] at h ⊢
      exact ih h
    · rw [if_neg hemp] at h ⊢
      by_cases hcom : startsWith "#".data (rstripL raw) = true
      · rw [if_pos hcom] at h ⊢
        simp only [Bool.or_eq_true] at h
        rcases h with h | h
        · exact ⟨rstripL raw, List.mem_cons_self _ _, h⟩
        · obtain ⟨l, hl, hsw⟩ := ih h
          exact ⟨l, List.mem_cons_of_mem _ hl, hsw⟩
      · rw [if_neg hcom] at h ⊢
        obtain ⟨l, hl, hsw⟩ := ih h
        exact ⟨l, List.mem_cons_of_mem _ hl, hsw⟩

theorem sanPass_flag_false (raws : List Str)
    (h : ∀ r ∈ raws, startsWith hdr1 (rstripL r) = false) :
    (sanPass raws).2 = false := by
  induction raws with
  | nil => rfl
  | cons raw rest ih =>
    have hrest := ih (fun r hr => h r (List.mem_cons_of_mem _ hr))
    simp only [sanPass]
    by_cases hemp : rstripL raw = []
    · rw [if_pos hemp]; exact hrest
    · rw [if_neg hemp]
      by_cases hcom : startsWith "#".data (rstripL raw) = true
      · rw [if_pos hcom]
        simp only
        rw [h raw (List.mem_cons_self _ _), hrest]
        rfl
      · rw [if_neg hcom]
        exact hrest

theorem sanPass_reprocess (L : List Str) (h : ∀ l ∈ L, processedLine l) :
    sanPass (L ++ [[]]) = (L, L.any (fun l => startsWith hdr1 l)) := by
  induction L with
  | nil =>
    simp only [List.nil_append, List.any_nil]
    simp [sanPass, rstripL]
  | cons l L2 ih =>
    have hl := h l (List.mem_cons_self _ _)
    have hrec := ih (fun x hx => h x (List.mem_cons_of_mem _ hx))
    simp only [List.cons_append, sanPass, List.append_eq]
    rw [hl.1, if_neg hl.2.1, hrec]
    rcases hl.2.2.2.2 with hcom | hfix
    · rw [if_pos hcom]
      simp [List.any_cons]
    · by_cases hcom : startsWith "#".data l = true
      · rw [if_pos hcom]
        simp [List.any_cons]
      · rw [if_neg hcom]
        have hno : startsWith hdr1 l = false := by
          by_contra hc
          exact hcom (startsWith_hdr1_hash (by revert hc; cases startsWith hdr1 l <;> simp))
        rw [hfix]
        simp [List.any_cons, hno]

/-! More split and join lemmas. -/

theorem mem_splitOnCharL {x c : Char} {s p : Str}
    (hp : p ∈ splitOnCharL c s) (hx : x ∈ p) : x ∈ s := by
  induction s generalizing p with
  | nil =>
    simp only [splitOnCharL, List.mem_singleton] at hp
    rw [hp] at hx
    cases hx
  | cons a rest ih =>
    simp only [splitOnCharL] at hp
    by_cases hac : a = c
    · rw [if_pos hac] at hp
      rcases List.mem_cons.mp hp with h | h
      · rw [h] at hx; cases hx
      · exact List.mem_cons_of_mem _ (ih h hx)
    · rw [if_neg hac] at hp
      rcases he : splitOnCharL c rest with _ | ⟨l, ls⟩
      · exact absurd he (splitOnCharL_ne_nil c rest)
      · rw [he] at hp
        rcases List.mem_cons.mp hp with h | h
        · rw [h] at hx
          rcases List.mem_cons.mp hx with h2 | h2
          · rw [h2]; exact List.mem_cons_self _ _
          · exact List.mem_cons_of_mem _
              (ih (by rw [he]; exact List.mem_cons_self _ _) h2)
        · exact List.mem_cons_of_mem _
            (ih (by rw [he]; exact List.mem_cons_of_mem _ h) hx)

theorem splitOnCharL_of_not_mem {c : Char} {l : Str} (h : c ∉ l) :
    splitOnCharL c l = [l] := by
  induction l with
  | nil => rfl
  | cons a rest ih =>
    have hac : ¬ a = c := fun he => h (by rw [he]; exact List.mem_cons_self _ _)
    simp only [splitOnCharL, if_neg hac]
    rw [ih (fun hm => h (List.mem_cons_of_mem _ hm))]

theorem splitOnCharL_joinStr_exact (c : Char) (ls : List Str) (hne : ls ≠ [])
    (hfree : ∀ p ∈ ls, c ∉ p) : splitOnCharL c (joinStr [c] ls) = ls := by
  induction ls with
  | nil => exact absurd rfl hne
  | cons l ls2 ih =>
    cases ls2 with
    | nil => exact splitOnCharL_of_not_mem (hfree l (List.mem_cons_self _ _))
    | cons m ms =>
      rw [joinStr_cons_of_ne_nil (by simp)]
      have assoc : l ++ [c] ++ joinStr [c] (m :: ms) = l ++ c :: joinStr [c] (m :: ms) := by simp
      rw [assoc, splitOnCharL_append (hfree l (List.mem_cons_self _ _))]
      rw [ih (by simp) (fun p hp => hfree p (List.mem_cons_of_mem _ hp))]

theorem joinStr_concat (sep : Str) (q : List Str) (p : Str) (hq : q ≠ []) :
    joinStr sep (q ++ [p]) = joinStr sep q ++ sep ++ p := by
  induction q with
  | nil => exact absurd rfl hq
  | cons a q2 ih =>
    cases q2 with
    | nil => simp [joinStr]
    | cons b q3 =>
      rw [List.cons_append, joinStr_cons_of_ne_nil (by simp),
        joinStr_cons_of_ne_nil (by simp), ih (by simp)]
      simp

theorem joinStr_take_getD_7 (c : Char) (parts : List Str) (h7 : parts.length = 7) :
    joinStr [c] (parts.take 6) ++ c :: parts.getD 6 [] = joinStr [c] parts := by
  rcases List.eq_nil_or_concat parts with h | ⟨q, p, hqp⟩
  · rw [h] at h7; cases h7
  · rw [List.concat_eq_append] at hqp
    have hq6 : q.length = 6 := by
      rw [hqp] at h7
      simp only [List.length_append, List.length_singleton] at h7
      omega
    have htake : parts.take 6 = q := by
      rw [hqp, ← hq6]
      exact List.take_left q [p]
    have hgetD : parts.getD 6 [] = p := by
      rw [hqp, ← hq6]
      exact getD_concat q p []
    rw [htake, hgetD, hqp, joinStr_concat [c] q p (by intro hn; rw [hn] at hq6; cases hq6)]
    simp

theorem reSplitWs_head_of_two {n : Nat} {l : Str} (h : 2 ≤ (reSplitWs n l).length) :
    ∃ t, reSplitWs n l = l.takeWhile (fun c => !isPySpace c) :: t := by
  cases n with
  | zero => simp [reSplitWs] at h
  | succ m =>
    rcases he : l.dropWhile (fun c => !isPySpace c) with _ | ⟨r, rs⟩
    · rw [reSplitWs_succ_nil m l he] at h
      simp at h
    · rw [reSplitWs_succ_cons m l he]
      exact ⟨_, rfl⟩

theorem takeWhile_cons_head {q : Char → Bool} {l t : Str} {a : Char}
    (h : l.takeWhile q = a :: t) : ∃ cs, l = a :: cs := by
  cases l with
  | nil => cases h
  | cons b bs =>
    rw [List.takeWhile_cons] at h
    by_cases hb : q b
    · rw [if_pos hb] at h
      cases h
      exact ⟨bs, rfl⟩
    · rw [if_neg hb] at h
      cases h

/-! Head shape of the rewritten non-comment lines. -/

theorem procNonComment_no_hash {line : Str} (h : startsWith "#".data line = false) :
    startsWith "#".data (procNonComment line) = false := by
  by_cases ht : '\t' ∈ line
  · rw [procNonComment, if_pos ht]; exact h
  · rw [procNonComment, if_neg ht]
    simp only
    by_cases h7 : 7 ≤ (reSplitWs 6 line).length
    · rw [if_pos h7]
      obtain ⟨t, hhead⟩ := reSplitWs_head_of_two (n := 6) (l := line) (by omega)
      have hlen7 : (reSplitWs 6 line).length = 7 :=
        Nat.le_antisymm (reSplitWs_length 6 line) h7
      have htlen : t.length = 6 := by
        rw [hhead] at hlen7
        simp only [List.length_cons] at hlen7
        omega
      have htake : (reSplitWs 6 line).take 6
          = line.takeWhile (fun c => !isPySpace c) :: t.take 5 := by
        rw [hhead]
        rfl
      have ht5 : t.take 5 ≠ [] := by
        intro hn
        have := congrArg List.length hn
        rw [List.length_take, htlen] at this
        cases this
      rw [htake, joinStr_cons_of_ne_nil ht5]
      rcases hpre : line.takeWhile (fun c => !isPySpace c) with _ | ⟨a, p0t⟩
      · simp [startsWith]
      · obtain ⟨cs, hline⟩ := takeWhile_cons_head hpre
        have hna : ¬ ('#' == a) = true := by
          rw [hline] at h
          simp only [startsWith] at h
          intro hc
          rw [hc] at h
          simp at h
        simp [startsWith, hna]
    · rw [if_neg h7]; exact h

theorem sanPass_no_hdr (raws : List Str)
    (h : ∀ r ∈ raws, startsWith hdr1 (rstripL r) = false) :
    ∀ l ∈ (sanPass raws).1, startsWith hdr1 l = false := by
  induction raws with
  | nil => intro l hl; simp [sanPass] at hl
  | cons raw rest ih =>
    intro l hl
    have hrest := ih (fun r hr => h r (List.mem_cons_of_mem _ hr))
    simp only [sanPass] at hl
    by_cases hemp : rstripL raw = []
    · rw [if_pos hemp] at hl
      exact hrest l hl
    · rw [if_neg hemp] at hl
      by_cases hcom : startsWith "#".data (rstripL raw) = true
      · rw [if_pos hcom] at hl
        rcases List.mem_cons.mp hl with h2 | h2
        · rw [h2]; exact h raw (List.mem_cons_self _ _)
        · exact hrest l h2
      · rw [if_neg hcom] at hl
        rcases List.mem_cons.mp hl with h2 | h2
        · rw [h2]
          have hnohash : startsWith "#".data (rstripL raw) = false :=
            eq_false_of_ne_true hcom
          have := procNonComment_no_hash hnohash
          by_contra hc
          have hc2 : startsWith hdr1 (procNonComment (rstripL raw)) = true := by
            revert hc
            cases startsWith hdr1 (procNonComment (rstripL raw)) <;> simp
          rw [startsWith_hdr1_hash hc2] at this
          cases this
        · exact hrest l h2

/-! Characterisation of the sanitizer output. -/

theorem sanitize_eq_of_ne_nil {s : Str} (h : s ≠ []) :
    _sanitize_netscape_text s =
      joinStr ['\n']
        (if (sanPass (splitOnCharL '\n' (normalizeNewlines s))).2 then
          (sanPass (splitOnCharL '\n' (normalizeNewlines s))).1
         else hdr1 :: hdr2 :: hdr3 :: (sanPass (splitOnCharL '\n' (normalizeNewlines s))).1)
      ++ ['\n'] := by
  unfold _sanitize_netscape_text
  rw [if_neg h]

theorem sanitize_lines {s : Str} (hne : s ≠ []) :
    ∃ L, _sanitize_netscape_text s = joinStr ['\n'] L ++ ['\n'] ∧ L ≠ [] ∧
      (∀ l ∈ L, processedLine l) ∧ L.any (fun l => startsWith hdr1 l) = true := by
  have hch : ∀ r ∈ splitOnCharL '\n' (normalizeNewlines s), '\n' ∉ r ∧ '\r' ∉ r := by
    intro r hr
    exact ⟨splitOnCharL_not_mem '\n' _ r hr,
      fun hcr => normalizeNewlines_no_cr s (mem_splitOnCharL hr hcr)⟩
  have h1 := sanPass_processed _ hch
  by_cases hflag : (sanPass (splitOnCharL '\n' (normalizeNewlines s))).2 = true
  · obtain ⟨l, hl, hsw⟩ := sanPass_flag_witness _ hflag
    refine ⟨(sanPass (splitOnCharL '\n' (normalizeNewlines s))).1, ?_, ?_, h1, ?_⟩
    · rw [sanitize_eq_of_ne_nil hne, if_pos hflag]
    · exact List.ne_nil_of_mem hl
    · exact List.any_eq_true.mpr ⟨l, hl, hsw⟩
  · refine ⟨hdr1 :: hdr2 :: hdr3 :: (sanPass (splitOnCharL '\n' (normalizeNewlines s))).1,
      ?_, by simp, ?_, ?_⟩
    · rw [sanitize_eq_of_ne_nil hne, if_neg hflag]
    · intro l hl
      rcases List.mem_cons.mp hl with h2 | h2
      · rw [h2]
        exact ⟨by decide, by decide, by decide, by decide, Or.inl (by decide)⟩
      rcases List.mem_cons.mp h2 with h3 | h3
      · rw [h3]
        exact ⟨by decide, by decide, by decide, by decide, Or.inl (by decide)⟩
      rcases List.mem_cons.mp h3 with h4 | h4
      · rw [h4]
        exact ⟨by decide, by decide, by decide, by decide, Or.inl (by decide)⟩
      · exact h1 l h4
    · simp only [List.any_cons, startsWith_refl hdr1, Bool.true_or]

/-- Claim C2: the cookie sanitizer is idempotent: for every input string T,
_sanitize_netscape_text (_sanitize_netscape_text T) equals
_sanitize_netscape_text T. -/
theorem sanitizer_idempotent (s : Str) :
    _sanitize_netscape_text (_sanitize_netscape_text s) = _sanitize_netscape_text s := by
  by_cases hs : s = []
  · rw [hs]; rfl
  · obtain ⟨L, hout, hLne, hproc, hany⟩ := sanitize_lines hs
    have houtne : _sanitize_netscape_text s ≠ [] := by
      rw [hout]; simp
    have hnoCR : '\r' ∉ _sanitize_netscape_text s := by
      rw [hout]
      intro hm
      rcases List.mem_append.mp hm with h | h
      · rcases mem_joinStr h with h2 | ⟨p, hp, hxp⟩
        · simp at h2
        · exact (hproc p hp).2.2.2.1 hxp
      · simp at h
    have hsplit : splitOnCharL '\n' (_sanitize_netscape_text s) = L ++ [[]] := by
      rw [hout]
      exact splitOnCharL_joinStr '\n' L hLne (fun p hp => (hproc p hp).2.2.1)
    rw [sanitize_eq_of_ne_nil houtne, normalizeNewlines_id hnoCR, hsplit,
      sanPass_reprocess L hproc]
    show joinStr ['\n']
        (if L.any (fun l => startsWith hdr1 l) then L
         else hdr1 :: hdr2 :: hdr3 :: L) ++ ['\n'] = _sanitize_netscape_text s
    rw [hany, if_pos rfl, ← hout]

/-- Input that already holds two full copies of the standard header block. -/
def headerBlockTwice : Str :=
  ("# Netscape HTTP Cookie File\n# http://curl.haxx.se/rfc/cookie_spec.html\n# This is a generated file!  Do not edit.\n# Netscape HTTP Cookie File\n# http://curl.haxx.se/rfc/cookie_spec.html\n# This is a generated file!  Do not edit.\n").data

set_option maxRecDepth 4000 in
/-- Claim C3 counterexample: on an input that contains the 3-line standard
header block twice, _sanitize_netscape_text keeps both copies verbatim (it
never collapses duplicate header comment lines), so the output contains the
block twice, not exactly once: the first header line occurs on two distinct
output lines. -/
theorem sanitizer_header_cex :
    _sanitize_netscape_text headerBlockTwice = headerBlockTwice ∧
    (splitOnCharL '\n' (_sanitize_netscape_text headerBlockTwice)).count hdr1 = 2 := by
  constructor
  · decide
  · decide

/-- Claim C3 (amended): for every nonempty input none of whose lines starts
(after rstrip) with the first standard header line, the sanitizer output
contains the standard 3-line header block exactly once, at the top: the
first three output lines are the block and no later line starts with the
first header line.  (The unamended claim fails when the input already holds
header lines: they are preserved as they are, duplicates included.) -/
theorem sanitizer_header_once_at_top (s : Str) (hne : s ≠ [])
    (hnohdr : ∀ r ∈ splitOnCharL '\n' (normalizeNewlines s),
      startsWith hdr1 (rstripL r) = false) :
    (splitOnCharL '\n' (_sanitize_netscape_text s)).take 3 = [hdr1, hdr2, hdr3] ∧
    ∀ l ∈ (splitOnCharL '\n' (_sanitize_netscape_text s)).drop 3,
      startsWith hdr1 l = false := by
  have hch : ∀ r ∈ splitOnCharL '\n' (normalizeNewlines s), '\n' ∉ r ∧ '\r' ∉ r := by
    intro r hr
    exact ⟨splitOnCharL_not_mem '\n' _ r hr,
      fun hcr => normalizeNewlines_no_cr s (mem_splitOnCharL hr hcr)⟩
  have h1 := sanPass_processed _ hch
  have hflag : (sanPass (splitOnCharL '\n' (normalizeNewlines s))).2 = false :=
    sanPass_flag_false _ hnohdr
  have hout : _sanitize_netscape_text s
      = joinStr ['\n']
          (hdr1 :: hdr2 :: hdr3 :: (sanPass (splitOnCharL '\n' (normalizeNewlines s))).1)
        ++ ['\n'] := by
    rw [sanitize_eq_of_ne_nil hne, hflag, if_neg (by simp)]
  have hLproc : ∀ l ∈ hdr1 :: hdr2 :: hdr3
      :: (sanPass (splitOnCharL '\n' (normalizeNewlines s))).1, '\n' ∉ l := by
    intro l hl
    rcases List.mem_cons.mp hl with h2 | h2
    · rw [h2]; decide
    rcases List.mem_cons.mp h2 with h3 | h3
    · rw [h3]; decide
    rcases List.mem_cons.mp h3 with h4 | h4
    · rw [h4]; decide
    · exact (h1 l h4).2.2.1
  have hsplit : splitOnCharL '\n' (_sanitize_netscape_text s)
      = (hdr1 :: hdr2 :: hdr3 :: (sanPass (splitOnCharL '\n' (normalizeNewlines s))).1)
        ++ [[]] := by
    rw [hout]
    exact splitOnCharL_joinStr '\n' _ (by simp) hLproc
  rw [hsplit]
  constructor
  · rfl
  · intro l hl
    simp only [List.cons_append, List.drop_succ_cons, List.drop_zero] at hl
    rcases List.mem_append.mp hl with h2 | h2
    · exact sanPass_no_hdr _ hnohdr l h2
    · simp only [List.mem_singleton] at h2
      rw [h2]
      decide

/-- A sample cookie line pasted with spaces instead of tabs. -/
def c3line : Str := ".y.com TRUE / FALSE 0 N V".data

/-- Witness for `sanitizer_header_once_at_top` at a concrete header-free
input. -/
theorem sanitizer_header_once_at_top_witness :
    (splitOnCharL '\n' (_sanitize_netscape_text c3line)).take 3
      = [hdr1, hdr2, hdr3] :=
  (sanitizer_header_once_at_top c3line (by decide) (by decide)).1

/-- Claim C8: for every line without a tab character, the whitespace
re-split yields at most 7 fields; with fewer than 7 fields the line is kept
unchanged, and with exactly 7 fields the line is rewritten as the first 6
fields tab-joined plus a tab and the verbatim 7th field, so that splitting
the rewritten line on tabs recovers exactly the 7 fields (the 7th is not
re-split even if it contains whitespace). -/
theorem sanitizer_respaces_lines (line : Str) (hnotab : '\t' ∉ line) :
    (reSplitWs 6 line).length ≤ 7 ∧
    ((reSplitWs 6 line).length < 7 → procNonComment line = line) ∧
    ((reSplitWs 6 line).length = 7 →
      procNonComment line
        = joinStr ['\t'] ((reSplitWs 6 line).take 6)
          ++ '\t' :: (reSplitWs 6 line).getD 6 [] ∧
      splitOnCharL '\t' (procNonComment line) = reSplitWs 6 line) := by
  refine ⟨reSplitWs_length 6 line, ?_, ?_⟩
  · intro hlt
    rw [procNonComment, if_neg hnotab]
    simp only
    rw [if_neg (by omega)]
  · intro h7
    have hge : 7 ≤ (reSplitWs 6 line).length := by omega
    have heq : procNonComment line
        = joinStr ['\t'] ((reSplitWs 6 line).take 6)
          ++ '\t' :: (reSplitWs 6 line).getD 6 [] := by
      rw [procNonComment, if_neg hnotab]
      simp only
      rw [if_pos hge]
    refine ⟨heq, ?_⟩
    rw [heq, joinStr_take_getD_7 '\t' _ h7]
    refine splitOnCharL_joinStr_exact '\t' _ (reSplitWs_ne_nil 6 line) ?_
    intro p hp hmem
    exact hnotab (mem_reSplitWs hp hmem)

/-- A 7-field space-separated cookie line whose value holds spaces. -/
def c8line : Str := ".y.com TRUE / FALSE 0 NAME value with spaces".data

/-- Witness for `sanitizer_respaces_lines`: the sample line is rewritten to
a tab-separated 7-field line whose last field keeps its inner spaces. -/
theorem sanitizer_respaces_lines_witness :
    procNonComment c8line
      = ".y.com\tTRUE\t/\tFALSE\t0\tNAME\tvalue with spaces".data ∧
    (reSplitWs 6 c8line).length = 7 :=
  ⟨(((sanitizer_respaces_lines c8line (by decide)).2.2 (by decide)).1).trans (by decide),
    by decide⟩

/-! Embedding of urllib.parse.urlparse, restricted to the fields that app.py
consumes (scheme, netloc, path, query). -/

/-- Characters removed from a URL before parsing by urllib.parse.urlsplit
(tab, CR and LF, the unsafe URL bytes sanitisation of CPython). -/
def removeUnsafe (s : Str) : Str :=
  s.filter (fun c => !(c = '\t' || c = '\r' || c = '\n'))

/-- Characters allowed in a URL scheme. -/
def isSchemeChar (c : Char) : Bool := c.isAlpha || c.isDigit || c = '+' || c = '-' || c = '.'

/-- Scheme recognition of urlsplit: the text before the first colon is
stripped as the scheme when it is nonempty, begins with an ASCII letter and
holds only scheme characters. -/
def schemeSplit (s : Str) : Str × Str :=
  match s.findIdx? (fun c => c = ':') with
  | none => ([], s)
  | some i =>
    if 0 < i && (s.take i).all isSchemeChar && (s.headD ' ').isAlpha then
      (lowerL (s.take i), s.drop (i + 1))
    else ([], s)

/-- urlsplit steps up to the authority: unsafe-byte removal, scheme split,
then, when the remainder starts with two slashes, the netloc runs up to the
next slash, question mark or hash.  Returns (scheme, netloc, remainder). -/
def preParse (url : Str) : Str × Str × Str :=
  let sp := schemeSplit (removeUnsafe url)
  let u1 := sp.2
  if startsWith "//".data u1 then
    ((sp.1, (u1.drop 2).takeWhile (fun c => !(c = '/' || c = '?' || c = '#')),
      (u1.drop 2).dropWhile (fun c => !(c = '/' || c = '?' || c = '#'))))
  else (sp.1, [], u1)

/-- Authority of a URL as extracted by urlsplit, before the bracket check. -/
def rawNetloc (url : Str) : Str := (preParse url).2.1

/-- The Invalid IPv6 URL condition of urlsplit: a square bracket on one side
only inside the authority raises ValueError. -/
def bracketBad (nl : Str) : Bool :=
  (nl.contains '[' && !nl.contains ']') || (nl.contains ']' && !nl.contains '[')

/-- Parse result of urlparse restricted to the consumed fields. -/
structure ParsedUrl where
  scheme : Str
  netloc : Str
  path : Str
  query : Str
deriving DecidableEq

/-- First occurrence split: text before the first hit and text after it. -/
def splitOnFirst (c : Char) (s : Str) : Str × Str :=
  match s.findIdx? (fun x => x = c) with
  | none => (s, [])
  | some i => (s.take i, s.drop (i + 1))

/-- Index of the last character satisfying p. -/
def rfindIdx (p : Char → Bool) (s : Str) : Option Nat :=
  match s.reverse.findIdx? p with
  | none => none
  | some j => some (s.length - 1 - j)

/-- First index at or after start whose character satisfies p. -/
def findIdxFrom (p : Char → Bool) (s : Str) (start : Nat) : Option Nat :=
  match (s.drop start).findIdx? p with
  | none => none
  | some j => some (start + j)

/-- The params split of urlparse: when the last path segment holds a
semicolon, the path stops at that semicolon. -/
def splitParamsPath (rest : Str) : Str :=
  if rest.contains ';' then
    if rest.contains '/' then
      match rfindIdx (fun c => c = '/') rest with
      | some k =>
        match findIdxFrom (fun c => c = ';') rest k with
        | some i => rest.take i
        | none => rest
      | none => rest
    else
      match rest.findIdx? (fun c => c = ';') with
      | some i => rest.take i
      | none => rest
  else rest

/-- Embedding of urllib.parse.urlparse as used by app.py: scheme, netloc,
path (params removed) and query; the ValueError raised on an unbalanced
bracket in the authority is the error case. -/
def urlparse (url : Str) : Except Unit ParsedUrl :=
  let pp := preParse url
  if bracketBad pp.2.1 then .error ()
  else
    let u2 := pp.2.2.takeWhile (fun c => !(c = '#'))
    let pq := splitOnFirst '?' u2
    .ok ⟨pp.1, pp.2.1, splitParamsPath pq.1, pq.2⟩

/-- Embedding of _domain_key_for (app.py lines 45-51): canonical platform
key from the lowered host of the URL. -/
def _domain_key_for (url : Str) : Except Unit Str :=
  match urlparse url with
  | .error e => .error e
  | .ok p =>
    let host := lowerL p.netloc
    if containsSub "instagram.com".data host then .ok "instagram.com".data
    else if containsSub "youtube.com".data host || containsSub "youtu.be".data host then
      .ok "youtube.com".data
    else if containsSub "tiktok.com".data host then .ok "tiktok.com".data
    else if containsSub "facebook.com".data host || containsSub "fb.watch".data host then
      .ok "facebook.com".data
    else if host = [] then .ok "unknown".data
    else .ok host

/-- Claim C7 counterexample: the platform classifier is not total: on the
malformed URL http://[ the underlying urlparse raises ValueError (Invalid
IPv6 URL), which propagates out of _domain_key_for uncaught. -/
theorem domain_key_cex : _domain_key_for "http://[".data = Except.error () := by decide

/-- Claim C7 (amended): _domain_key_for is deterministic (it is a function)
and returns a value for every input string except those whose authority
holds a square bracket on one side only, where the URL parser raises; when
no platform rule matches, the result defaults to the lowered host itself,
or to "unknown" for an empty host. -/
theorem domain_key_total (u : Str) (hok : bracketBad (rawNetloc u) = false) :
    (∃ k, _domain_key_for u = Except.ok k) ∧
    (containsSub "instagram.com".data (lowerL (rawNetloc u)) = false →
      containsSub "youtube.com".data (lowerL (rawNetloc u)) = false →
      containsSub "youtu.be".data (lowerL (rawNetloc u)) = false →
      containsSub "tiktok.com".data (lowerL (rawNetloc u)) = false →
      containsSub "facebook.com".data (lowerL (rawNetloc u)) = false →
      containsSub "fb.watch".data (lowerL (rawNetloc u)) = false →
      _domain_key_for u
        = Except.ok (if lowerL (rawNetloc u) = [] then "unknown".data
            else lowerL (rawNetloc u))) := by
  have hparse : urlparse u = Except.ok
      ⟨(preParse u).1, rawNetloc u,
        splitParamsPath
          (splitOnFirst '?' ((preParse u).2.2.takeWhile (fun c => !(c = '#')))).1,
        (splitOnFirst '?' ((preParse u).2.2.takeWhile (fun c => !(c = '#')))).2⟩ := by
    unfold urlparse
    rw [if_neg (by unfold rawNetloc at hok; rw [hok]; simp)]
    rfl
  have hbody : _domain_key_for u =
      (let host := lowerL (rawNetloc u)
       if containsSub "instagram.com".data host then Except.ok "instagram.com".data
       else if containsSub "youtube.com".data host
           || containsSub "youtu.be".data host then Except.ok "youtube.com".data
       else if containsSub "tiktok.com".data host then Except.ok "tiktok.com".data
       else if containsSub "facebook.com".data host
           || containsSub "fb.watch".data host then Except.ok "facebook.com".data
       else if host = [] then Except.ok "unknown".data
       else Except.ok host) := by
    unfold _domain_key_for
    rw [hparse]
  constructor
  · rw [hbody]
    simp only
    repeat' split
    all_goals exact ⟨_, rfl⟩
  · intro h1 h2 h3 h4 h5 h6
    rw [hbody]
    simp only [h1, h2, h3, h4, h5, h6, Bool.or_self, Bool.false_eq_true, if_false]
    split <;> rfl

/-- Witness for `domain_key_total` at a concrete unclassified host. -/
theorem domain_key_total_witness :
    _domain_key_for "https://example.org/v".data = Except.ok "example.org".data :=
  ((domain_key_total "https://example.org/v".data (by decide)).2
    (by decide) (by decide) (by decide) (by decide) (by decide) (by decide)).trans
    (by decide)

/-! Embedding of the query-string helpers used by _normalize_youtube_url.
Percent-decoding and percent-encoding (unquote / quote_plus) are modelled as
the identity: the video ids and flag values handled here carry no percent
escapes, and no claim under verification depends on them. -/

/-- The plus-to-space replacement that parse_qsl applies before unquoting. -/
def mapPlusToSpace (s : Str) : Str := s.map (fun c => if c = '+' then ' ' else c)

/-- parse_qsl with keep_blank_values=True: split the query on ampersands,
skip empty chunks, split each chunk at its first equals sign (a chunk with
no equals sign yields an empty value). -/
def parseQsl (q : Str) : List (Str × Str) :=
  (splitOnCharL '&' q).filterMap (fun nv =>
    if nv = [] then none
    else some (mapPlusToSpace (splitOnFirst '=' nv).1,
      mapPlusToSpace (splitOnFirst '=' nv).2))

/-- Ordered-dict grouping of parse_qs: append the value to an existing key
or add the key at the end. -/
def insertQ (k v : Str) : List (Str × List Str) → List (Str × List Str)
  | [] => [(k, [v])]
  | (k2, vs) :: rest =>
    if k2 = k then (k2, vs ++ [v]) :: rest else (k2, vs) :: insertQ k v rest

/-- parse_qs with keep_blank_values=True: values grouped per key, keys in
first-occurrence order. -/
def parseQs (q : Str) : List (Str × List Str) :=
  (parseQsl q).foldl (fun acc kv => insertQ kv.1 kv.2 acc) []

/-- Ordered-dict assignment query[k] = v: replace in place, or append. -/
def setQ (k : Str) (v : List Str) : List (Str × List Str) → List (Str × List Str)
  | [] => [(k, v)]
  | (k2, vs) :: rest =>
    if k2 = k then (k2, v) :: rest else (k2, vs) :: setQ k v rest

/-- Ordered-dict lookup query.get(k). -/
def getQ (k : Str) (q : List (Str × List Str)) : Option (List Str) :=
  match q.find? (fun kv => kv.1 == k) with
  | none => none
  | some kv => some kv.2

/-- Ordered-dict key membership k in query. -/
def hasKey (k : Str) (q : List (Str × List Str)) : Bool := (getQ k q).isSome

/-- urlencode with doseq=True over the dict comprehension of
_normalize_youtube_url: a singleton list contributes its sole element, a
longer list one pair per element, an empty list nothing. -/
def urlencodeQ (q : List (Str × List Str)) : Str :=
  joinStr "&".data ((q.map (fun kv => kv.2.map (fun v => kv.1 ++ '=' :: v))).flatten)

/-- urlunparse for the tuple (scheme, host, path, no params, query, no
fragment) as assembled at the end of _normalize_youtube_url. -/
def urlunparseSimple (scheme netloc path query : Str) : Str :=
  let p := if path ≠ [] ∧ ¬ startsWith "/".data path = true then '/' :: path else path
  let base := scheme ++ ':' :: '/' :: '/' :: (netloc ++ p)
  if query ≠ [] then base ++ '?' :: query else base

/-- Python path.strip of the slash character. -/
def stripSlashes (s : Str) : Str :=
  ((s.dropWhile (fun c => c = '/')).reverse.dropWhile (fun c => c = '/')).reverse

/-- Embedding of _normalize_youtube_url (app.py lines 287-327): shorts to
watch conversion, youtu.be to watch conversion, injection of the
has_verified and bpctr flags; any ValueError of urlparse is caught by the
enclosing try and yields the input unchanged. -/
def _normalize_youtube_url (u : Str) : Str :=
  match urlparse u with
  | .error _ => u
  | .ok parsed =>
    let host := lowerL parsed.netloc
    if !(containsSub "youtube.com".data host) && !(containsSub "youtu.be".data host) then u
    else
      let query := parseQs parsed.query
      let pq :=
        if containsSub "/shorts/".data parsed.path then
          match splitOnCharL '/' (stripSlashes parsed.path) with
          | p0 :: p1 :: _ =>
            if p0 = "shorts".data then ("/watch".data, setQ "v".data [p1] query)
            else (parsed.path, query)
          | _ => (parsed.path, query)
        else (parsed.path, query)
      let hpq :=
        if containsSub "youtu.be".data host &&
            !(match getQ "v".data pq.2 with
              | some (_ :: _) => true
              | _ => false) then
          let st := stripSlashes pq.1
          let vid := if st = [] then [] else (splitOnCharL '/' st).headD []
          if vid ≠ [] then
            ("www.youtube.com".data, "/watch".data, setQ "v".data [vid] pq.2)
          else (host, pq.1, pq.2)
        else (host, pq.1, pq.2)
      let q4 := if hasKey "has_verified".data hpq.2.2 then hpq.2.2
        else setQ "has_verified".data ["1".data] hpq.2.2
      let q5 := if hasKey "bpctr".data q4 then q4
        else setQ "bpctr".data ["9999999999".data] q4
      urlunparseSimple (if parsed.scheme = [] then "https".data else parsed.scheme)
        hpq.1 hpq.2.1 (urlencodeQ q5)

/-- Claim C10: _normalize_youtube_url is the identity on every input whose
parsed host contains neither youtube.com nor youtu.be, and it is total: the
only raising step of its body, urlparse, is caught by the enclosing try and
also yields the input unchanged. -/
theorem normalize_id_non_youtube (u : Str) :
    (∀ p, urlparse u = Except.ok p →
      containsSub "youtube.com".data (lowerL p.netloc) = false →
      containsSub "youtu.be".data (lowerL p.netloc) = false →
      _normalize_youtube_url u = u) ∧
    (urlparse u = Except.error () → _normalize_youtube_url u = u) := by
  constructor
  · intro p hp h1 h2
    unfold _normalize_youtube_url
    rw [hp]
    simp [h1, h2]
  · intro hp
    unfold _normalize_youtube_url
    rw [hp]

/-- Witness for `normalize_id_non_youtube` on a non-YouTube URL. -/
theorem normalize_id_non_youtube_witness :
    _normalize_youtube_url "https://example.com/a?b=c".data
      = "https://example.com/a?b=c".data :=
  (normalize_id_non_youtube "https://example.com/a?b=c".data).1
    ⟨"https".data, "example.com".data, "/a".data, "b=c".data⟩
    (by decide) (by decide) (by decide)

/-! Embedding of the cookie sources (app.py lines 130-171), of the CONSENT
injection (lines 179-195) and of _choose_cookiefile (lines 235-284).
Cookie files are modelled by their contents; the environment and the
Supabase store are oracles passed as functions. -/

/-- Embedding of _cookiefile_from_request (app.py lines 155-161): a falsy or
blank inline text yields no file, otherwise a fresh temp file holding the
sanitized text. -/
def _cookiefile_from_request (cookies_txt : Str) : Option Str :=
  if cookies_txt = [] then none
  else if stripL cookies_txt = [] then none
  else some (_sanitize_netscape_text cookies_txt)

/-- Embedding of _cookiefile_from_env_for (app.py lines 130-153).  The
environment oracle maps a variable name to its decoded jar text; none
covers the unset, blank and base64-decode-failure cases, which the source
folds into the same no-file outcome. -/
def _cookiefile_from_env_for (url : Str) (env : Str → Option Str) :
    Except Unit (Option Str) :=
  match urlparse url with
  | .error e => .error e
  | .ok p =>
    let host := lowerL p.netloc
    let var : Option Str :=
      if containsSub "youtube.com".data host || containsSub "youtu.be".data host then
        some "YTDLP_COOKIES_B64".data
      else if containsSub "instagram.com".data host then some "IG_COOKIES_B64".data
      else if containsSub "tiktok.com".data host then some "TK_COOKIES_B64".data
      else if containsSub "facebook.com".data host || containsSub "fb.watch".data host then
        some "FB_COOKIES_B64".data
      else none
    match var with
    | none => .ok none
    | some v => .ok (env v)

/-- Embedding of _cookiefile_from_supabase (app.py lines 163-171).  The
store oracle maps a domain key to the stored cookie text of its most recent
row; none covers the missing-row, not-configured and request-failure cases
of _get_latest_cookies_from_supabase.  An empty stored text is also
rejected (the falsy check on line 166). -/
def _cookiefile_from_supabase (url : Str) (store : Str → Option Str) :
    Except Unit (Option Str) :=
  match _domain_key_for url with
  | .error e => .error e
  | .ok k =>
    match store k with
    | none => .ok none
    | some txt =>
      if txt = [] then .ok none
      else .ok (some (_sanitize_netscape_text txt))

/-- Match one-or-more whitespace characters (regex backslash-s-plus).  The
maximal munch is equivalent to the backtracking regex here because every
token following a whitespace run in the CONSENT pattern starts with a
non-whitespace character. -/
def wsPlus (s : Str) : Option Str :=
  match s with
  | [] => none
  | c :: cs => if isPySpace c then some ((c :: cs).dropWhile isPySpace) else none

/-- Match a literal prefix, returning the rest. -/
def dropLit : Str → Str → Option Str
  | [], s => some s
  | _ :: _, [] => none
  | p :: ps, c :: cs => if p = c then dropLit ps cs else none

/-- Match of the CONSENT regex of _ensure_consent_cookie at one position:
literal .youtube.com, whitespace, TRUE, whitespace, slash, whitespace,
FALSE, whitespace, 0, whitespace, CONSENT, trailing whitespace. -/
def consentAt (s : Str) : Bool :=
  (do
    let r1 ← dropLit ".youtube.com".data s
    let r2 ← wsPlus r1
    let r3 ← dropLit "TRUE".data r2
    let r4 ← wsPlus r3
    let r5 ← dropLit "/".data r4
    let r6 ← wsPlus r5
    let r7 ← dropLit "FALSE".data r6
    let r8 ← wsPlus r7
    let r9 ← dropLit "0".data r8
    let r10 ← wsPlus r9
    let r11 ← dropLit "CONSENT".data r10
    wsPlus r11).isSome

/-- Positions after a newline, for the multiline anchor of re.M. -/
def consentTail : Str → Bool
  | [] => false
  | a :: rest => (if a = '\n' then consentAt rest else false) || consentTail rest

/-- re.search of the CONSENT pattern with re.M: the anchor matches at the
start of the text and after every newline. -/
def hasConsent (s : Str) : Bool := consentAt s || consentTail s

/-- The CONSENT line appended by _ensure_consent_cookie. -/
def consentLine : Str :=
  ".youtube.com\tTRUE\t/\tFALSE\t0\tCONSENT\tYES+cb.20210328-17-p0.en+FX+123\n".data

/-- Embedding of _ensure_consent_cookie (app.py lines 179-195) on file
contents: keep the text when a CONSENT record is present, else append the
CONSENT line, inserting a newline when the text does not end with one. -/
def _ensure_consent_cookie (txt : Str) : Str :=
  if hasConsent txt then txt
  else (if txt.getLast? = some '\n' then txt else txt ++ ['\n']) ++ consentLine

/-- The three cookie sources of _choose_cookiefile. -/
inductive CookieSource
  | fromRequest
  | fromEnv
  | fromSupabase
deriving DecidableEq, BEq

/-- Source order table of _choose_cookiefile (app.py lines 240-248): the
dict lookup returns the request-first order for auto; a falsy prefer value
is replaced by auto, and an unknown one falls back to the same
request-first list (line 248). -/
def sourceOrder (prefer : Str) : List CookieSource :=
  if prefer = "request".data then [.fromRequest, .fromEnv, .fromSupabase]
  else if prefer = "env".data then [.fromEnv, .fromRequest, .fromSupabase]
  else if prefer = "supabase".data then [.fromSupabase, .fromRequest, .fromEnv]
  else [.fromRequest, .fromEnv, .fromSupabase]

/-- One source probe, with the argument dispatch of line 252: the request
source receives the inline text, the other two the URL and their oracle. -/
def runSource (url inline : Str) (env store : Str → Option Str) :
    CookieSource → Except Unit (Option Str)
  | .fromRequest => .ok (_cookiefile_from_request inline)
  | .fromEnv => _cookiefile_from_env_for url env
  | .fromSupabase => _cookiefile_from_supabase url store

/-- Source tag recorded in LAST_COOKIE_SOURCE. -/
def sourceTag : CookieSource → Str
  | .fromRequest => "request".data
  | .fromEnv => "env".data
  | .fromSupabase => "supabase".data

/-- The source loop of _choose_cookiefile (lines 250-258): the first source
yielding a file wins; the boolean records whether the supabase source was
invoked, that is, whether the remote store was queried. -/
def resolveLoop (url inline : Str) (env store : Str → Option Str) :
    List CookieSource → Except Unit (Option (Str × Str) × Bool)
  | [] => .ok (none, false)
  | s :: rest =>
    match runSource url inline env store s with
    | .error e => .error e
    | .ok none =>
      match resolveLoop url inline env store rest with
      | .error e => .error e
      | .ok (r, q) => .ok (r, (s == .fromSupabase) || q)
    | .ok (some jar) => .ok (some (jar, sourceTag s), s == .fromSupabase)

/-- Outcome of _choose_cookiefile: chosen jar contents (none when no source
produced one), the LAST_COOKIE_SOURCE tag, and whether the remote store was
queried during the resolution. -/
structure Resolution where
  jar : Option Str
  source : Str
  storeQueried : Bool
deriving DecidableEq

/-- Post-processing of the chosen file (app.py lines 264-284): parse the
host again (line 265, raising on malformed URLs) and inject the CONSENT
cookie for YouTube hosts.  The LAST_COOKIE_SNAPSHOT bookkeeping (a 20-line
debug excerpt of the chosen file) has no effect on the result and is not
modelled. -/
def consentWrap (url : Str) (jar tag : Str) (q : Bool) : Except Unit Resolution :=
  match urlparse url with
  | .error e => .error e
  | .ok p =>
    let host := lowerL p.netloc
    if containsSub "youtube.com".data host || containsSub "youtu.be".data host then
      .ok ⟨some (_ensure_consent_cookie jar), tag, q⟩
    else .ok ⟨some jar, tag, q⟩

/-- Embedding of _choose_cookiefile (app.py lines 235-284). -/
def _choose_cookiefile (url inline : Str) (env store : Str → Option Str)
    (prefer : Str) : Except Unit Resolution :=
  match resolveLoop url inline env store (sourceOrder prefer) with
  | .error e => .error e
  | .ok (none, q) => .ok ⟨none, "none".data, q⟩
  | .ok (some (jar, tag), q) => consentWrap url jar tag q

/-- The jar transformation a request-sourced cookie text undergoes for a
given URL: sanitization, plus the CONSENT injection on YouTube hosts. -/
def consentAdjustFor (url jar : Str) : Str :=
  if containsSub "youtube.com".data (lowerL (rawNetloc url))
      || containsSub "youtu.be".data (lowerL (rawNetloc url)) then
    _ensure_consent_cookie jar
  else jar

theorem resolveLoop_cons_some {url inline : Str} {env store : Str → Option Str}
    {s : CookieSource} {rest : List CookieSource} {jar : Str}
    (h : runSource url inline env store s = Except.ok (some jar)) :
    resolveLoop url inline env store (s :: rest)
      = Except.ok (some (jar, sourceTag s), s == CookieSource.fromSupabase) := by
  unfold resolveLoop
  rw [h]

theorem resolveLoop_cons_none {url inline : Str} {env store : Str → Option Str}
    {s : CookieSource} {rest : List CookieSource}
    (h : runSource url inline env store s = Except.ok none) :
    resolveLoop url inline env store (s :: rest)
      = match resolveLoop url inline env store rest with
        | .error e => .error e
        | .ok (r, q) => .ok (r, (s == CookieSource.fromSupabase) || q) := by
  simp only [resolveLoop, h]

theorem consentWrap_eq_of_parse {url : Str} {p : ParsedUrl}
    (hp : urlparse url = Except.ok p) (jar tag : Str) (q : Bool) :
    consentWrap url jar tag q
      = Except.ok ⟨some (if containsSub "youtube.com".data (lowerL p.netloc)
            || containsSub "youtu.be".data (lowerL p.netloc) then
            _ensure_consent_cookie jar else jar), tag, q⟩ := by
  unfold consentWrap
  rw [hp]
  show (if containsSub "youtube.com".data (lowerL p.netloc)
        || containsSub "youtu.be".data (lowerL p.netloc) then
      (Except.ok ⟨some (_ensure_consent_cookie jar), tag, q⟩ : Except Unit Resolution)
    else Except.ok ⟨some jar, tag, q⟩) = _
  by_cases hyt : (containsSub "youtube.com".data (lowerL p.netloc)
      || containsSub "youtu.be".data (lowerL p.netloc)) = true
  · rw [if_pos hyt, if_pos hyt]
  · rw [if_neg hyt, if_neg hyt]

theorem consentWrap_eq_of_parse_error {url : Str}
    (hp : urlparse url = Except.error ()) (jar tag : Str) (q : Bool) :
    consentWrap url jar tag q = Except.error () := by
  unfold consentWrap
  rw [hp]

/-- Claim C1 counterexample: on the malformed URL http://[ with a genuinely
nonempty inline cookie text, _choose_cookiefile does not return a jar at
all: after the request source is chosen, line 265 parses the URL again and
the ValueError of urlparse propagates. -/
theorem choose_cookiefile_cex :
    _choose_cookiefile "http://[".data ".y.com TRUE / FALSE 0 N V".data
      (fun _ => none) (fun _ => none) "auto".data = Except.error () := by decide

/-- Claim C1 (amended): for every URL accepted by the URL parser (no
unbalanced bracket in the authority) and for every environment and
remote-store state, if the inline cookie text holds a non-whitespace
character, then under the default auto preference the resolver returns a
jar whose contents are the sanitization of the inline text (with the
CONSENT line appended for YouTube hosts), records the request source, and
never queries the remote store.  (The unamended claim fails on malformed
URLs, where the second parse raises, and on whitespace-only inline text,
which the request source rejects.) -/
theorem choose_cookiefile_request_priority (url inline : Str)
    (env store : Str → Option Str)
    (hurl : bracketBad (rawNetloc url) = false)
    (hinline : stripL inline ≠ []) :
    _choose_cookiefile url inline env store "auto".data
      = Except.ok ⟨some (consentAdjustFor url (_sanitize_netscape_text inline)),
          "request".data, false⟩ := by
  have hne : inline ≠ [] := fun h => hinline (by rw [h]; rfl)
  have hreq : _cookiefile_from_request inline
      = some (_sanitize_netscape_text inline) := by
    unfold _cookiefile_from_request
    rw [if_neg hne, if_neg hinline]
  have hparse : urlparse url = Except.ok
      ⟨(preParse url).1, rawNetloc url,
        splitParamsPath
          (splitOnFirst '?' ((preParse url).2.2.takeWhile (fun c => !(c = '#')))).1,
        (splitOnFirst '?' ((preParse url).2.2.takeWhile (fun c => !(c = '#')))).2⟩ := by
    unfold urlparse
    rw [if_neg (by unfold rawNetloc at hurl; rw [hurl]; simp)]
    rfl
  have hloop : resolveLoop url inline env store (sourceOrder "auto".data)
      = Except.ok (some (_sanitize_netscape_text inline, "request".data), false) := by
    rw [show sourceOrder "auto".data
        = [CookieSource.fromRequest, .fromEnv, .fromSupabase] from rfl]
    have hstep : runSource url inline env store .fromRequest
        = Except.ok (some (_sanitize_netscape_text inline)) := by
      rw [show runSource url inline env store .fromRequest
          = Except.ok (_cookiefile_from_request inline) from rfl, hreq]
    rw [resolveLoop_cons_some hstep]
    rfl
  unfold _choose_cookiefile
  rw [hloop]
  show consentWrap url (_sanitize_netscape_text inline) "request".data false = _
  rw [consentWrap_eq_of_parse hparse]
  unfold consentAdjustFor
  rfl

/-- Inline cookie text used by the C1 witness. -/
def c1inline : Str := ".y.com TRUE / FALSE 0 N V".data

/-- Witness for `choose_cookiefile_request_priority` on a YouTube URL, with
an environment and a remote store that both hold competing jars: the result
is derived from the inline text alone. -/
theorem choose_cookiefile_request_priority_witness :
    _choose_cookiefile "https://www.youtube.com/watch?v=abc".data c1inline
      (fun _ => some "ENVJAR".data) (fun _ => some "STOREJAR".data) "auto".data
      = Except.ok ⟨some (consentAdjustFor "https://www.youtube.com/watch?v=abc".data
          (_sanitize_netscape_text c1inline)), "request".data, false⟩ :=
  choose_cookiefile_request_priority "https://www.youtube.com/watch?v=abc".data
    c1inline _ _ (by decide) (by decide)

/-- Cookie text held by the remote store in the C6 scenario. -/
def c6storedTxt : Str := ".ig.com TRUE / FALSE 0 sessionid s1".data

/-- Remote store of the C6 scenario: one row, under the instagram.com key. -/
def c6store : Str → Option Str :=
  fun k => if k = "instagram.com".data then some c6storedTxt else none

/-- Claim C6 counterexample: _choose_cookiefile holds no cache whatsoever
(no TTL constant, no per-domain entry, no state between calls: the embedded
resolver consults exactly the inputs shown here).  For this concrete input
every resolution, including one run immediately after an identical one
(age 0, far below any 24-hour TTL), reaches the supabase source and queries
the remote store (storeQueried = true), where the claimed cache would
forbid the re-query. -/
theorem resolver_no_cache_cex :
    _choose_cookiefile "https://www.instagram.com/reel/x".data []
      (fun _ => none) c6store "auto".data
      = Except.ok ⟨some (_sanitize_netscape_text c6storedTxt),
          "supabase".data, true⟩ := by decide

/-- Claim C6 (amended): the resolver performs no caching: under the auto
order, whenever the request and environment sources produce nothing, every
successful resolution has queried the remote store, regardless of any
earlier resolution. -/
theorem resolver_always_queries_store (url inline : Str)
    (env store : Str → Option Str)
    (hreq : _cookiefile_from_request inline = none)
    (henv : _cookiefile_from_env_for url env = Except.ok none) :
    ∀ r, _choose_cookiefile url inline env store "auto".data = Except.ok r →
      r.storeQueried = true := by
  intro r hr
  have hloop : resolveLoop url inline env store (sourceOrder "auto".data)
      = match _cookiefile_from_supabase url store with
        | .error e => .error e
        | .ok none => .ok (none, true)
        | .ok (some jar) => .ok (some (jar, "supabase".data), true) := by
    rw [show sourceOrder "auto".data
        = [CookieSource.fromRequest, .fromEnv, .fromSupabase] from rfl]
    rw [resolveLoop_cons_none
      (by rw [show runSource url inline env store .fromRequest
          = Except.ok (_cookiefile_from_request inline) from rfl, hreq])]
    rw [resolveLoop_cons_none
      (by rw [show runSource url inline env store .fromEnv
          = _cookiefile_from_env_for url env from rfl, henv])]
    cases hsup : _cookiefile_from_supabase url store with
    | error e =>
      rw [show resolveLoop url inline env store [CookieSource.fromSupabase]
          = Except.error e by
        unfold resolveLoop
        rw [show runSource url inline env store .fromSupabase
            = _cookiefile_from_supabase url store from rfl, hsup]]
    | ok o =>
      cases o with
      | none =>
        rw [show resolveLoop url inline env store [CookieSource.fromSupabase]
            = Except.ok (none, true) by
          unfold resolveLoop
          rw [show runSource url inline env store .fromSupabase
              = _cookiefile_from_supabase url store from rfl, hsup]
          rfl]
        rfl
      | some jar =>
        rw [show resolveLoop url inline env store [CookieSource.fromSupabase]
            = Except.ok (some (jar, "supabase".data), true) by
          unfold resolveLoop
          rw [show runSource url inline env store .fromSupabase
              = _cookiefile_from_supabase url store from rfl, hsup]
          rfl]
        rfl
  unfold _choose_cookiefile at hr
  rw [hloop] at hr
  cases hsup : _cookiefile_from_supabase url store with
  | error e =>
    rw [hsup] at hr
    exact Except.noConfusion hr
  | ok o =>
    cases o with
    | none =>
      rw [hsup] at hr
      have h2 : Except.ok (⟨none, "none".data, true⟩ : Resolution)
          = Except.ok r := hr
      injection h2 with h3
      rw [← h3]
    | some jar =>
      rw [hsup] at hr
      have h2 : consentWrap url jar "supabase".data true = Except.ok r := hr
      cases hp : urlparse url with
      | error e =>
        cases e
        rw [consentWrap_eq_of_parse_error hp] at h2
        exact Except.noConfusion h2
      | ok p =>
        rw [consentWrap_eq_of_parse hp] at h2
        injection h2 with h3
        rw [← h3]

/-- Witness for `resolver_always_queries_store` on a URL with no platform
rule, no inline text and an empty store: the resolution still queries the
store and comes back empty-handed. -/
theorem resolver_always_queries_store_witness :
    (⟨none, "none".data, true⟩ : Resolution).storeQueried = true :=
  resolver_always_queries_store "https://example.org/v".data [] (fun _ => none)
    (fun _ => none) (by decide) (by decide) ⟨none, "none".data, true⟩ (by decide)

/-! Embedding of the client-emulation fallback loop of _download_best_audio
(app.py lines 429-489) and of the audio file selection (lines 491-497).
The yt_dlp invocation is the external boundary: the per-strategy option
dicts (headers, extractor args, format string, per-attempt retries) are
consumed opaquely by yt_dlp, so one run of the loop is determined by which
labels succeed; the runner oracle maps a strategy label to success or to
the text of the raised exception. -/

/-- The fixed ordered strategy labels of the attempts table (lines 429-458). -/
def attemptLabels : List Str :=
  ["web".data, "mweb".data, "web_embedded".data, "android".data,
   "ios".data, "tv".data, "tv_embedded".data]

/-- Outcome of the fallback loop: the labels invoked in order, the
SUCCESS_CLIENT label, and the collected labelled error entries. -/
structure LoopOut where
  invoked : List Str
  success : Option Str
  errors : List Str
deriving DecidableEq

/-- The for loop of lines 460-482: invoke each strategy once in order, stop
at the first success, collect one labelled entry per failure
(label.upper() colon space message). -/
def downloadLoop (runner : Str → Except Str Unit) : List Str → LoopOut
  | [] => ⟨[], none, []⟩
  | l :: rest =>
    match runner l with
    | .ok _ => ⟨[l], some l, []⟩
    | .error e =>
      let r := downloadLoop runner rest
      ⟨l :: r.invoked, r.success, (upperL l ++ ": ".data ++ e) :: r.errors⟩

/-- The Instagram remediation hint of line 486. -/
def igHint : Str := " • Instagram geralmente exige cookies válidos.".data

/-- The YouTube remediation hint of line 488. -/
def ytHint : Str :=
  " • YouTube pode exigir cookies (YTDLP_COOKIES_B64 ou Supabase host=youtube.com).".data

/-- The remediation hint selection of lines 484-488: the instagram hint is
overwritten by the YouTube hint when the host contains youtu. -/
def hintFor (host : Str) : Str :=
  let h := if containsSub "instagram".data host then igHint else []
  if containsSub "youtu".data host then ytHint else h

/-- The for/else around the attempts: when some strategy succeeds the loop
output is returned (file selection follows); when every strategy fails the
RuntimeError of line 489 aggregates the labelled errors joined by pipes,
plus the host hint. -/
def downloadOutcome (host : Str) (runner : Str → Except Str Unit) :
    Except Str LoopOut :=
  let o := downloadLoop runner attemptLabels
  match o.success with
  | some _ => .ok o
  | none =>
    .error ("Download falhou. ".data ++ joinStr " | ".data o.errors ++ hintFor host)

/-- Success test of one yt_dlp invocation. -/
def exOk : Except Str Unit → Bool := fun r =>
  match r with
  | .ok _ => true
  | .error _ => false

theorem downloadLoop_invoked (runner : Str → Except Str Unit) (L : List Str) :
    (downloadLoop runner L).invoked
      = L.takeWhile (fun l => !exOk (runner l))
        ++ (L.dropWhile (fun l => !exOk (runner l))).take 1 := by
  induction L with
  | nil => rfl
  | cons l rest ih =>
    cases hr : runner l with
    | ok u =>
      simp [downloadLoop, hr, List.takeWhile_cons, List.dropWhile_cons, exOk]
    | error e =>
      simp [downloadLoop, hr, List.takeWhile_cons, List.dropWhile_cons, exOk, ih]

theorem downloadLoop_not_later (runner : Str → Except Str Unit) :
    ∀ (L : List Str) (k : Nat) (hk : k < L.length), L.Nodup →
      exOk (runner (L.get ⟨k, hk⟩)) = true →
      ∀ lab ∈ L.drop (k + 1), lab ∉ (downloadLoop runner L).invoked := by
  intro L
  induction L with
  | nil => intro k hk; cases hk
  | cons l rest ih =>
    intro k hk hnd hsucc lab hlab
    have hndr : rest.Nodup := (List.nodup_cons.mp hnd).2
    have hlr : l ∉ rest := (List.nodup_cons.mp hnd).1
    cases k with
    | zero =>
      have hsucc : exOk (runner l) = true := hsucc
      have hlab2 : lab ∈ rest := by simpa using hlab
      cases hr : runner l with
      | error e =>
        rw [hr] at hsucc
        simp [exOk] at hsucc
      | ok u =>
        simp only [downloadLoop, hr]
        intro hm
        rw [List.mem_singleton.mp hm] at hlab2
        exact hlr hlab2
    | succ k2 =>
      have hk2 : k2 < rest.length := Nat.lt_of_succ_lt_succ hk
      have hsucc2 : exOk (runner (rest.get ⟨k2, hk2⟩)) = true := hsucc
      have hlab2 : lab ∈ rest.drop (k2 + 1) := by simpa using hlab
      have hlabr : lab ∈ rest := List.drop_subset _ _ hlab2
      cases hr : runner l with
      | ok u =>
        simp only [downloadLoop, hr]
        intro hm
        rw [List.mem_singleton.mp hm] at hlabr
        exact hlr hlabr
      | error e =>
        simp only [downloadLoop, hr]
        intro hm
        rcases List.mem_cons.mp hm with h2 | h2
        · rw [h2] at hlabr; exact hlr hlabr
        · exact ih k2 hk2 hndr hsucc2 lab hlab2 h2

/-- Claim C4: the orchestrator short-circuits and never re-tries a
strategy: whatever the per-strategy outcomes, the invoked labels are an
initial segment of the fixed list (web, mweb, web_embedded, android, ios,
tv, tv_embedded) in that order with no label repeated, and if the strategy
at position k succeeds, none of the strategies after position k is ever
invoked. -/
theorem download_short_circuit (runner : Str → Except Str Unit) (k : Nat)
    (hk : k < attemptLabels.length)
    (hsucc : exOk (runner (attemptLabels.get ⟨k, hk⟩)) = true) :
    (∃ t, (downloadLoop runner attemptLabels).invoked ++ t = attemptLabels) ∧
    (downloadLoop runner attemptLabels).invoked.Nodup ∧
    ∀ lab ∈ attemptLabels.drop (k + 1),
      lab ∉ (downloadLoop runner attemptLabels).invoked := by
  have hpre : ∃ t, (downloadLoop runner attemptLabels).invoked ++ t = attemptLabels := by
    refine ⟨(attemptLabels.dropWhile (fun l => !exOk (runner l))).drop 1, ?_⟩
    rw [downloadLoop_invoked]
    rw [List.append_assoc, List.take_append_drop, List.takeWhile_append_dropWhile]
  refine ⟨hpre, ?_, ?_⟩
  · obtain ⟨t, ht⟩ := hpre
    have hnd : attemptLabels.Nodup := by decide
    rw [← ht] at hnd
    exact List.Nodup.of_append_left hnd
  · exact downloadLoop_not_later runner attemptLabels k hk (by decide) hsucc

/-- Runner used by the C4 witness: only the android strategy succeeds. -/
def c4runner : Str → Except Str Unit :=
  fun l => if l = "android".data then .ok () else .error "denied".data

/-- Witness for `download_short_circuit` with a success at position 3
(android): the tv strategy is never invoked and no label repeats. -/
theorem download_short_circuit_witness :
    ("tv".data ∉ (downloadLoop c4runner attemptLabels).invoked) ∧
    (downloadLoop c4runner attemptLabels).invoked.Nodup :=
  ⟨(download_short_circuit c4runner 3 (by decide) (by decide)).2.2
      "tv".data (by decide),
    (download_short_circuit c4runner 3 (by decide) (by decide)).2.1⟩

theorem downloadLoop_all_fail (runner : Str → Except Str Unit) (msg : Str → Str)
    (L : List Str) (hfail : ∀ l ∈ L, runner l = Except.error (msg l)) :
    downloadLoop runner L
      = ⟨L, none, L.map (fun l => upperL l ++ ": ".data ++ msg l)⟩ := by
  induction L with
  | nil => rfl
  | cons l rest ih =>
    simp only [downloadLoop, hfail l (List.mem_cons_self _ _),
      ih (fun x hx => hfail x (List.mem_cons_of_mem _ hx))]
    rfl

theorem takeWhile_to_colon {u : Str} (hu : ':' ∉ u) (r : Str) :
    (u ++ ':' :: r).takeWhile (fun c => !(c = ':')) = u := by
  induction u with
  | nil => simp [List.takeWhile_cons]
  | cons a u2 ih =>
    have ha : ¬ a = ':' := fun he => hu (by rw [he]; exact List.mem_cons_self _ _)
    rw [List.cons_append, List.takeWhile_cons, if_pos (by simp [ha])]
    rw [ih (fun hm => hu (List.mem_cons_of_mem _ hm))]

/-- Claim C5: when every strategy fails, _download_best_audio surfaces one
error whose message is the fixed prefix plus the pipe-joined list of the 7
per-strategy entries (one per strategy, labelled with the uppercased
strategy name, pairwise distinct) plus the host hint, and the hint is
nonempty for the platforms that usually require cookies (hosts containing
instagram or youtu). -/
theorem download_exhausted_aggregates (host : Str) (runner : Str → Except Str Unit)
    (msg : Str → Str) (hfail : ∀ l, runner l = Except.error (msg l)) :
    (downloadLoop runner attemptLabels).errors
        = attemptLabels.map (fun l => upperL l ++ ": ".data ++ msg l) ∧
    (downloadLoop runner attemptLabels).errors.length = 7 ∧
    (downloadLoop runner attemptLabels).errors.Nodup ∧
    downloadOutcome host runner
      = Except.error ("Download falhou. ".data
          ++ joinStr " | ".data (downloadLoop runner attemptLabels).errors
          ++ hintFor host) ∧
    ((containsSub "instagram".data host = true ∨ containsSub "youtu".data host = true) →
      hintFor host ≠ []) := by
  have hloop := downloadLoop_all_fail runner msg attemptLabels (fun l _ => hfail l)
  have herr : (downloadLoop runner attemptLabels).errors
      = attemptLabels.map (fun l => upperL l ++ ": ".data ++ msg l) := by
    rw [hloop]
  refine ⟨herr, by rw [herr]; rfl, ?_, ?_, ?_⟩
  · refine List.Nodup.of_map (fun e => e.takeWhile (fun c => !(c = ':'))) ?_
    have hmap : (downloadLoop runner attemptLabels).errors.map
        (fun e => e.takeWhile (fun c => !(c = ':')))
        = attemptLabels.map upperL := by
      rw [herr, List.map_map]
      refine List.map_congr_left ?_
      intro l hl
      have hcolon : ':' ∉ upperL l := by
        fin_cases hl <;> decide
      show (upperL l ++ ": ".data ++ msg l).takeWhile (fun c => !(c = ':')) = upperL l
      have hform : upperL l ++ ": ".data ++ msg l = upperL l ++ ':' :: (' ' :: msg l) := by
        simp
      rw [hform, takeWhile_to_colon hcolon]
    rw [hmap]
    decide
  · unfold downloadOutcome
    rw [hloop]
  · intro hplat
    show (if containsSub "youtu".data host then ytHint
      else if containsSub "instagram".data host then igHint else []) ≠ []
    by_cases hyt : containsSub "youtu".data host = true
    · rw [if_pos hyt]
      decide
    · rw [if_neg hyt]
      rcases hplat with hig | hyt2
      · rw [if_pos hig]
        decide
      · exact absurd hyt2 hyt

/-- Runner used by the C5 witness: every strategy fails the same way. -/
def c5runner : Str → Except Str Unit := fun _ => Except.error "boom".data

/-- Witness for `download_exhausted_aggregates` on a YouTube host. -/
theorem download_exhausted_aggregates_witness :
    (downloadLoop c5runner attemptLabels).errors.length = 7 ∧
    (downloadLoop c5runner attemptLabels).errors.Nodup ∧
    hintFor "www.youtube.com".data ≠ [] :=
  ⟨(download_exhausted_aggregates "www.youtube.com".data c5runner
      (fun _ => "boom".data) (fun _ => rfl)).2.1,
    (download_exhausted_aggregates "www.youtube.com".data c5runner
      (fun _ => "boom".data) (fun _ => rfl)).2.2.1,
    (download_exhausted_aggregates "www.youtube.com".data c5runner
      (fun _ => "boom".data) (fun _ => rfl)).2.2.2.2 (Or.inr (by decide))⟩

/-- The fixed extension preference order of line 492. -/
def audioExts : List Str :=
  ["m4a".data, "webm".data, "opus".data, "mp3".data, "mp4".data, "mkv".data]

/-- Python str.endswith. -/
def endsWithL (suf s : Str) : Bool := startsWith suf.reverse s.reverse

/-- Match of the glob pattern star dot ext of line 493: fnmatch translates
it to an anchored dot-star backslash-dot ext, so a directory entry matches
exactly when its name ends with a dot and the extension. -/
def globMatch (ext name : Str) : Bool := endsWithL ('.' :: ext) name

/-- The no-audio error message of line 497. -/
def noAudioMsg : Str := "Nenhum arquivo de áudio foi baixado.".data

/-- Embedding of the selection loop (lines 491-497): for each extension in
preference order, glob the directory and return the first entry of the
result; when no extension matches, raise the no-audio error.  The directory
is modelled by its entry names in listing order; file contents are never
consulted (the model receives names only). -/
def selectLoop (names : List Str) : List Str → Except Str Str
  | [] => .error noAudioMsg
  | ext :: rest =>
    match names.filter (globMatch ext) with
    | [] => selectLoop names rest
    | f :: _ => .ok f

/-- The audio file selection of _download_best_audio over the fixed
extension order. -/
def selectAudioFile (names : List Str) : Except Str Str :=
  selectLoop names audioExts

theorem selectLoop_error_iff (names : List Str) (exts : List Str) :
    selectLoop names exts = Except.error noAudioMsg ↔
      ∀ ext ∈ exts, ∀ n ∈ names, globMatch ext n = false := by
  induction exts with
  | nil => simp [selectLoop]
  | cons ext rest ih =>
    rcases hf : names.filter (globMatch ext) with _ | ⟨f, fs⟩
    · have hnone : ∀ n ∈ names, globMatch ext n = false := by
        intro n hn
        have := List.filter_eq_nil_iff.mp hf n hn
        revert this
        cases globMatch ext n <;> simp
      constructor
      · intro h e he n hn
        rcases List.mem_cons.mp he with h2 | h2
        · rw [h2]; exact hnone n hn
        · refine (ih.mp ?_) e h2 n hn
          rw [← h]
          simp [selectLoop, hf]
      · intro h
        rw [show selectLoop names (ext :: rest) = selectLoop names rest by
          simp [selectLoop, hf]]
        exact ih.mpr (fun e he n hn => h e (List.mem_cons_of_mem _ he) n hn)
    · rw [show selectLoop names (ext :: rest) = Except.ok f by simp [selectLoop, hf]]
      constructor
      · intro h
        exact Except.noConfusion h
      · intro h
        have hfmem : f ∈ names.filter (globMatch ext) := by
          rw [hf]; exact List.mem_cons_self _ _
        have := List.mem_filter.mp hfmem
        rw [h ext (List.mem_cons_self _ _) f this.1] at this
        exact Bool.noConfusion this.2

theorem selectLoop_skip (names : List Str) (pre rest : List Str)
    (hpre : ∀ ext ∈ pre, ∀ n ∈ names, globMatch ext n = false) :
    selectLoop names (pre ++ rest) = selectLoop names rest := by
  induction pre with
  | nil => rfl
  | cons e pre2 ih =>
    have hf : names.filter (globMatch e) = [] :=
      List.filter_eq_nil_iff.mpr (fun n hn => by
        rw [hpre e (List.mem_cons_self _ _) n hn]; simp)
    rw [List.cons_append,
      show selectLoop names (e :: (pre2 ++ rest)) = selectLoop names (pre2 ++ rest) by
        simp [selectLoop, hf]]
    exact ih (fun x hx => hpre x (List.mem_cons_of_mem _ hx))

/-- Claim C9: the audio selector scans the directory in the fixed order
m4a, webm, opus, mp3, mp4, mkv: it fails with the no-audio error exactly
when no entry matches any of the six extensions, and when the preference
order is decomposed as pre ++ ext :: post with no entry matching an
extension of pre, the selector returns the first entry (in directory
listing order) matching ext, never consulting file contents (the model
receives entry names only). -/
theorem select_audio_first_match (names : List Str) :
    (selectAudioFile names = Except.error noAudioMsg ↔
      ∀ ext ∈ audioExts, ∀ n ∈ names, globMatch ext n = false) ∧
    (∀ pre ext post, audioExts = pre ++ ext :: post →
      (∀ e ∈ pre, ∀ n ∈ names, globMatch e n = false) →
      ∀ f fs, names.filter (globMatch ext) = f :: fs →
        selectAudioFile names = Except.ok f) := by
  constructor
  · exact selectLoop_error_iff names audioExts
  · intro pre ext post he hpre f fs hf
    unfold selectAudioFile
    rw [he, selectLoop_skip names pre (ext :: post) hpre]
    simp [selectLoop, hf]

/-- Directory contents of the C9 witness, in listing order. -/
def c9names : List Str := ["a.mp3".data, "b.m4a".data, "c.txt".data]

/-- Witness for `select_audio_first_match`: with both an mp3 and an m4a
present, the m4a wins although the mp3 is listed first. -/
theorem select_audio_first_match_witness :
    selectAudioFile c9names = Except.ok "b.m4a".data :=
  (select_audio_first_match c9names).2 [] "m4a".data
    ["webm".data, "opus".data, "mp3".data, "mp4".data, "mkv".data]
    (by decide) (by intro e he n hn; cases he) "b.m4a".data [] (by decide)
